import Mathlib

/-!
Shallow embedding of `src/adjacency_parsing/measure_adjacency_areatree.py`
(the layer-adjacency pipeline: layer selection, the result store's
reserve/commit steps, the scheduler, per-record serialization, and the
`time_string` helper), together with theorems settling the specification's
claims about it.
-/

namespace MeasureAdjacency

/-! ## Data model

The persisted result document (`fout`) is an XML tree with root `data`
whose children are `layer` elements; each `layer` has a `name` attribute
and a sequence of `area` children holding the serialized adjacency
records (source lines 210-221). -/

/-- One serialized `area` element: the five child fields written by the
output loop (source lines 211-221). -/
structure AreaElem where
  cell1 : String
  cell2 : String
  index1 : String
  index2 : String
  adjacency : String
deriving DecidableEq, Repr

/-- One `layer` element of the result document: its `name` attribute and
its `area` children. -/
structure LayerEntry where
  name : String
  areas : List AreaElem
deriving DecidableEq, Repr

/-- A boundary as produced by the boundary source: a name and an index
(the only fields the output loop reads, source lines 213-219). -/
structure Boundary where
  name : String
  index : Int
deriving DecidableEq, Repr

/-- An adjacency record `(b1, b2, _adj)` as returned by
`batch_compute_adjacency` and consumed by the output loop (line 210). -/
abbrev AdjRecord := Boundary × Boundary × Int

/-! ## time_string (source lines 68-76) -/

/-- Embedding of `time_string`: successive floor-division and remainder by
86400, 3600 and 60, then `"%d:%d:%d:%d"` formatting (for a natural number
argument, `%d` prints the decimal digits, i.e. `toString`). -/
def time_string (s : Nat) : String :=
  let day := s / (24 * 3600)
  let s1 := s % (24 * 3600)
  let hour := s1 / 3600
  let s2 := s1 % 3600
  let minutes := s2 / 60
  let s3 := s2 % 60
  toString day ++ ":" ++ toString hour ++ ":" ++ toString minutes ++ ":" ++ toString s3

/-! ## Layer selection (source lines 160-165)

`params.layers` is the optional `-l` comma-separated list; when absent the
run uses `sorted(P.layers.keys())`, the lexicographically sorted list of
all layer names known to the parsed source document. -/

/-- Embedding of the layer-selection branch: an explicit `-l` argument is
split on commas, otherwise all known layer names are sorted. -/
def selectLayers (layersArg : Option String) (known : List String) : List String :=
  match layersArg with
  | some s => s.splitOn ","
  | none => known.mergeSort (fun a b => decide (a ≤ b))

/-! ## Result store: the reservation loop (source lines 168-190)

The output document's root holds `layer` children. The loop snapshots
`curr_layers` (the names present before the loop), and for each requested
name removes the first matching `layer` element when the name was in the
snapshot, then appends a fresh empty `layer` element. -/

/-- Embedding of `root.remove(root.find("layer[@name='%s']" % l))`:
lxml's `find` returns the first matching child in document order, and
`remove` deletes it. -/
def removeFirstLayer (doc : List LayerEntry) (l : String) : List LayerEntry :=
  match doc with
  | [] => []
  | e :: rest => if e.name = l then rest else e :: removeFirstLayer rest l

/-- The sublist of entries of `doc` whose `name` attribute is `m`
(`root.findall` restricted to one name); used to state uniqueness of
layer entries. -/
def entriesNamed (doc : List LayerEntry) (m : String) : List LayerEntry :=
  doc.filter (fun e => e.name == m)

/-- One iteration of the reservation loop (source lines 181-187): when `l`
was present in the pre-loop snapshot `curr`, the first entry named `l` is
removed; then a fresh empty `layer` element is appended
(`etree.SubElement(root, 'layer')` appends it, and the following
`root.append` of the already-last child is a no-op move). -/
def reserveStep (curr : List String) (doc : List LayerEntry) (l : String) : List LayerEntry :=
  (if l ∈ curr then removeFirstLayer doc l else doc) ++ [⟨l, []⟩]

/-- Embedding of the whole reservation loop (source lines 180-187):
`curr_layers` is computed once, before the loop, from the document. -/
def reserve (doc : List LayerEntry) (layers : List String) : List LayerEntry :=
  layers.foldl (reserveStep (doc.map LayerEntry.name)) doc

lemma entriesNamed_cons (e : LayerEntry) (rest : List LayerEntry) (m : String) :
    entriesNamed (e :: rest) m =
      if e.name = m then e :: entriesNamed rest m else entriesNamed rest m := by
  simp only [entriesNamed, List.filter_cons]
  by_cases h : e.name = m <;> simp [h]

lemma entriesNamed_append (d1 d2 : List LayerEntry) (m : String) :
    entriesNamed (d1 ++ d2) m = entriesNamed d1 m ++ entriesNamed d2 m :=
  List.filter_append _ _

lemma entriesNamed_removeFirstLayer_self (doc : List LayerEntry) (l : String) :
    entriesNamed (removeFirstLayer doc l) l = (entriesNamed doc l).tail := by
  induction doc with
  | nil => rfl
  | cons e rest ih =>
    by_cases h : e.name = l
    · simp [removeFirstLayer, h, entriesNamed_cons]
    · simp [removeFirstLayer, h, entriesNamed_cons, ih]

lemma entriesNamed_nil (m : String) : entriesNamed [] m = [] := rfl

lemma entriesNamed_removeFirstLayer_ne (doc : List LayerEntry) (l m : String) (h : m ≠ l) :
    entriesNamed (removeFirstLayer doc l) m = entriesNamed doc m := by
  induction doc with
  | nil => rfl
  | cons e rest ih =>
    by_cases he : e.name = l
    · have hem : ¬ e.name = m := by
        rw [he]
        exact fun hc => h hc.symm
      simp [removeFirstLayer, he, entriesNamed_cons, hem, h, Ne.symm h]
    · by_cases hm : e.name = m <;>
        simp [removeFirstLayer, he, entriesNamed_cons, hm, ih, h, Ne.symm h]

lemma length_entriesNamed_eq_count (doc : List LayerEntry) (m : String) :
    (entriesNamed doc m).length = (doc.map LayerEntry.name).count m := by
  induction doc with
  | nil => rfl
  | cons e rest ih =>
    rw [entriesNamed_cons]
    by_cases h : e.name = m <;> simp [h, List.count_cons, ih]

/-- Content of the filtered document after the whole reservation fold,
assuming the snapshot `curr` matches the starting document on every
to-be-reserved name (present names occur exactly once, absent names not
at all). -/
lemma reserve_foldl_entriesNamed (curr : List String) (names : List String) :
    ∀ doc : List LayerEntry, names.Nodup →
      (∀ l ∈ names,
        (l ∈ curr → (entriesNamed doc l).length = 1) ∧
        (l ∉ curr → entriesNamed doc l = [])) →
      ∀ m, entriesNamed (names.foldl (reserveStep curr) doc) m =
        if m ∈ names then [⟨m, []⟩] else entriesNamed doc m := by
  induction names with
  | nil =>
    intro doc _ _ m
    simp
  | cons l rest ih =>
    intro doc hnd H m
    have hstep : ∀ m', entriesNamed (reserveStep curr doc l) m' =
        if m' = l then [⟨l, []⟩] else entriesNamed doc m' := by
      intro m'
      unfold reserveStep
      rw [entriesNamed_append]
      have hself : entriesNamed [(⟨l, []⟩ : LayerEntry)] l = [⟨l, []⟩] := by
        rw [entriesNamed_cons, if_pos rfl, entriesNamed_nil]
      by_cases hml : m' = l
      · subst hml
        by_cases hc : m' ∈ curr
        · have h1 : (entriesNamed doc m').length = 1 := (H m' (by simp)).1 hc
          obtain ⟨a, ha⟩ := List.length_eq_one.mp h1
          rw [if_pos hc, entriesNamed_removeFirstLayer_self, ha, hself, if_pos rfl]
          rfl
        · have h0 : entriesNamed doc m' = [] := (H m' (by simp)).2 hc
          rw [if_neg hc, h0, hself, if_pos rfl]
          rfl
      · have hsing : entriesNamed [(⟨l, []⟩ : LayerEntry)] m' = [] := by
          have hne : ¬ (⟨l, []⟩ : LayerEntry).name = m' := fun hc => hml (hc.symm)
          rw [entriesNamed_cons, if_neg hne, entriesNamed_nil]
        by_cases hc : l ∈ curr
        · rw [if_pos hc, entriesNamed_removeFirstLayer_ne doc l m' hml, hsing,
            List.append_nil, if_neg hml]
        · rw [if_neg hc, hsing, List.append_nil, if_neg hml]
    have hln : l ∉ rest := (List.nodup_cons.mp hnd).1
    have hnd' : rest.Nodup := (List.nodup_cons.mp hnd).2
    have H' : ∀ l' ∈ rest,
        (l' ∈ curr → (entriesNamed (reserveStep curr doc l) l').length = 1) ∧
        (l' ∉ curr → entriesNamed (reserveStep curr doc l) l' = []) := by
      intro l' hl'
      have hne : l' ≠ l := by
        rintro rfl
        exact hln hl'
      rw [hstep l', if_neg hne]
      exact H l' (by simp [hl'])
    have hmain := ih (reserveStep curr doc l) hnd' H' m
    rw [List.foldl_cons, hmain]
    by_cases hm : m ∈ rest
    · simp [hm]
    · rw [if_neg hm, hstep m]
      by_cases hml : m = l
      · subst hml
        simp
      · simp [hm, hml]

/-! ## Claim C3 -/

/-- C3 (amended): for every list of pairwise-distinct layer names and
every prior document holding at most one entry per name, after `reserve`
the document holds exactly one entry — a fresh empty placeholder — per
reserved name, entries for non-reserved names are untouched, and no name
is duplicated. (As universally stated the claim fails when the requested
name list itself repeats a name; see the counterexample.) -/
theorem reserve_unique (doc : List LayerEntry) (names : List String)
    (h1 : names.Nodup) (h2 : (doc.map LayerEntry.name).Nodup) :
    (∀ m ∈ names, entriesNamed (reserve doc names) m = [⟨m, []⟩]) ∧
    (∀ m ∉ names, entriesNamed (reserve doc names) m = entriesNamed doc m) ∧
    ((reserve doc names).map LayerEntry.name).Nodup := by
  have hcount : ∀ m, (doc.map LayerEntry.name).count m ≤ 1 :=
    List.nodup_iff_count_le_one.mp h2
  have H : ∀ l ∈ names,
      (l ∈ doc.map LayerEntry.name → (entriesNamed doc l).length = 1) ∧
      (l ∉ doc.map LayerEntry.name → entriesNamed doc l = []) := by
    intro l _
    constructor
    · intro hmem
      have hpos : 0 < (doc.map LayerEntry.name).count l := List.count_pos_iff.mpr hmem
      have hle := hcount l
      rw [length_entriesNamed_eq_count]
      omega
    · intro hmem
      have h0 : (doc.map LayerEntry.name).count l = 0 := List.count_eq_zero.mpr hmem
      rw [← List.length_eq_zero, length_entriesNamed_eq_count]
      exact h0
  have hmain := reserve_foldl_entriesNamed (doc.map LayerEntry.name) names doc h1 H
  refine ⟨?_, ?_, ?_⟩
  · intro m hm
    rw [reserve, hmain m, if_pos hm]
  · intro m hm
    rw [reserve, hmain m, if_neg hm]
  · rw [List.nodup_iff_count_le_one]
    intro a
    rw [← length_entriesNamed_eq_count, reserve, hmain a]
    by_cases ha : a ∈ names
    · simp [ha]
    · rw [if_neg ha, length_entriesNamed_eq_count]
      exact hcount a

/-- Witness for C3's amended theorem at a concrete input: reserving
`["A"]` over a document holding only a stale `"A"` entry and a `"B"`
entry leaves exactly one fresh `"A"` placeholder. -/
theorem reserve_unique_witness :
    entriesNamed (reserve [⟨"A", [⟨"x", "y", "1", "2", "3"⟩]⟩, ⟨"B", []⟩] ["A"]) "A" =
      [⟨"A", []⟩] :=
  (reserve_unique [⟨"A", [⟨"x", "y", "1", "2", "3"⟩]⟩, ⟨"B", []⟩] ["A"]
    (by simp) (by simp)).1 "A" (by simp)

/-- C3 counterexample: the claim quantifies over every list of layer
names; for the duplicate list `["A", "A"]` over an empty prior document,
`reserve` leaves two entries named `"A"`, not exactly one. -/
theorem reserve_duplicate_counterexample :
    (entriesNamed (reserve ([] : List LayerEntry) ["A", "A"]) "A").length = 2 ∧
    ¬ (entriesNamed (reserve ([] : List LayerEntry) ["A", "A"]) "A").length = 1 := by
  decide

/-! ## Scheduler (source lines 57-65 and 200-205) -/

/-- Python runtime errors the embedded calls can raise. -/
inductive PyError
  | typeError
deriving DecidableEq, Repr

/-- `process_layer` is declared `def process_layer(l, P, params)`
(source line 57): three required positional parameters, no defaults. -/
def process_layer_nparams : Nat := 3

/-- A Python positional call: the body runs only when the number of
supplied arguments matches the number of required parameters; otherwise
the call raises `TypeError` without running the body. -/
def pyCallArity (nparams nargs : Nat) (result : α) : Except PyError α :=
  if nargs = nparams then Except.ok result else Except.error PyError.typeError

/-- Error-propagating evaluation of one call per layer, in submission
order: a list comprehension (and `Pool.starmap`) surfaces the first
raised error. -/
def runAll (call : String → Except PyError α) : List String → Except PyError (List α)
  | [] => Except.ok []
  | l :: rest =>
    match call l with
    | Except.error e => Except.error e
    | Except.ok a =>
      match runAll call rest with
      | Except.error e => Except.error e
      | Except.ok bs => Except.ok (a :: bs)

/-- The `nproc == 1` branch (source line 201):
`[process_layer(l, P) for l in layers]` supplies two positional
arguments to the three-parameter `process_layer`. `task` abstracts the
layer computation itself (boundary source, overlap filter, batched
scorer on that layer). -/
def runSequential (layers : List String) (task : String → α) : Except PyError (List α) :=
  runAll (fun l => pyCallArity process_layer_nparams 2 (task l)) layers

/-- The `nproc > 1` branch (source lines 204-205):
`pool.starmap(process_layer, [(l, P, params) for l in layers])` supplies
three positional arguments per layer, and `starmap` returns the results
in the order of its argument list regardless of completion order. -/
def runParallel (layers : List String) (task : String → α) : Except PyError (List α) :=
  runAll (fun l => pyCallArity process_layer_nparams 3 (task l)) layers

/-- The result-consumption pairing (source line 207):
`for l, adj in zip(layers, adjacencies)` over the parallel branch's
output. -/
def collectPairs (layers : List String) (task : String → α) : List (String × α) :=
  match runParallel layers task with
  | Except.ok adjacencies => layers.zip adjacencies
  | Except.error _ => []

lemma runAll_ok {α : Type} (f : String → α) (layers : List String) :
    runAll (fun l => Except.ok (f l)) layers = Except.ok (layers.map f) := by
  induction layers with
  | nil => rfl
  | cons l rest ih => simp [runAll, ih]

lemma runParallel_eq_map {α : Type} (layers : List String) (task : String → α) :
    runParallel layers task = Except.ok (layers.map task) := by
  have harity : (fun l => pyCallArity process_layer_nparams 3 (task l)) =
      fun l : String => Except.ok (task l) := by
    funext l
    rfl
  rw [runParallel, harity, runAll_ok]

/-! ## Claim C4 -/

/-- C4 (code bug): the `nproc == 1` branch calls `process_layer(l, P)`
with two arguments while `process_layer` requires three, so on any
nonempty layer list the run raises `TypeError` before producing any
layer result, instead of running the layers sequentially as claimed. -/
theorem runSequential_typeError {α : Type} (layers : List String) (task : String → α)
    (h : layers ≠ []) :
    runSequential layers task = Except.error PyError.typeError := by
  cases layers with
  | nil => exact absurd rfl h
  | cons l rest => rfl

/-- Witness for C4's theorem at a concrete input. -/
theorem runSequential_typeError_witness :
    runSequential ["L1"] (fun _ => ([] : List AdjRecord)) = Except.error PyError.typeError :=
  runSequential_typeError ["L1"] (fun _ => ([] : List AdjRecord)) (by simp)

/-! ## Claim C5 -/

/-- C5 (code bug): worker-count invariance fails because of the
sequential branch's arity bug: on the same nonempty layer list with the
same deterministic task, the `nproc > 1` run returns every layer's
result while the `nproc == 1` run aborts with `TypeError`, so the two
runs do not produce identical outputs. -/
theorem workerCount_divergence {α : Type} (layers : List String) (task : String → α)
    (h : layers ≠ []) :
    runParallel layers task = Except.ok (layers.map task) ∧
    runSequential layers task ≠ runParallel layers task := by
  refine ⟨runParallel_eq_map layers task, ?_⟩
  cases layers with
  | nil => exact absurd rfl h
  | cons l rest =>
    rw [runParallel_eq_map]
    have hs : runSequential (l :: rest) task = Except.error PyError.typeError := rfl
    rw [hs]
    exact fun hc => Except.noConfusion hc

/-- Witness for C5's theorem at a concrete input. -/
theorem workerCount_divergence_witness :
    runParallel ["L1"] (fun _ => (0 : Nat)) = Except.ok [0] ∧
    runSequential ["L1"] (fun _ => (0 : Nat)) ≠ runParallel ["L1"] (fun _ => (0 : Nat)) :=
  workerCount_divergence ["L1"] (fun _ => (0 : Nat)) (by simp)

/-! ## Claim C6 -/

/-- C6: in the multi-worker branch, results are consumed in the original
submission order: every pair the zip loop produces associates a layer
with its own task's result, never with another layer's. -/
theorem collectPairs_own_result {α : Type} (layers : List String) (task : String → α)
    (l : String) (r : α) (h : (l, r) ∈ collectPairs layers task) : r = task l := by
  have hcp : collectPairs layers task = layers.zip (layers.map task) := by
    rw [collectPairs, runParallel_eq_map]
  rw [hcp] at h
  have hz : layers.zip (layers.map task) = layers.map fun a => (a, task a) := by
    have hzm := List.zip_map' id task layers
    simpa using hzm
  rw [hz] at h
  obtain ⟨a, _, heq⟩ := List.mem_map.mp h
  injection heq with h1 h2
  subst h1
  exact h2.symm

/-- Witness for C6's theorem at a concrete input: in a two-layer run the
pair for layer `"ab"` carries that layer's own result. -/
theorem collectPairs_own_result_witness : (2 : Nat) = ("ab" : String).length :=
  collectPairs_own_result ["a", "ab"] String.length "ab" 2 (by decide)

/-! ## Run-level event trace (source lines 200-234) -/

/-- Observable events of one run: completing a layer's computation and
committing that layer's serialized result to the output file. -/
inductive Event
  | compute (l : String)
  | commit (l : String)
deriving DecidableEq, Repr

/-- Event order in the run driver: lines 200-205 produce `adjacencies`
for every layer before the write loop of lines 207-234 runs, and that
loop serializes and rewrites the output file once per layer, in
submission order. -/
def runTrace (layers : List String) : List Event :=
  layers.map Event.compute ++ layers.map Event.commit

/-- The property claim C1 states, as a predicate on the layer list: each
layer's commit event precedes the next layer's compute event. -/
def commitBeforeNextCompute (layers : List String) : Prop :=
  ∀ k < layers.length - 1,
    (runTrace layers).indexOf (Event.commit (layers.getD k "")) <
      (runTrace layers).indexOf (Event.compute (layers.getD (k + 1) ""))

/-! ## Claim C1 -/

/-- C1 (amended): every layer's computation completes before any layer's
result is committed — so an interruption during the computation phase
loses every layer's result, not at most the in-flight one — and the
write loop then commits the layers one at a time in submission order
(the j-th commit event sits at trace position `layers.length + j` and
commits layer j). -/
theorem runTrace_commit_phase (layers : List String) :
    (∀ (t u : Nat) (lc lu : String), (runTrace layers)[t]? = some (Event.commit lc) →
      (runTrace layers)[u]? = some (Event.compute lu) → u < t) ∧
    (∀ j : Nat, (runTrace layers)[layers.length + j]? =
      Option.map Event.commit layers[j]?) := by
  constructor
  · intro t u lc lu ht hu
    have hcommit : layers.length ≤ t := by
      by_contra hlt
      push_neg at hlt
      rw [runTrace, List.getElem?_append,
        if_pos (by rw [List.length_map]; exact hlt), List.getElem?_map] at ht
      cases hx : layers[t]? with
      | none =>
        rw [hx] at ht
        simp at ht
      | some a =>
        rw [hx] at ht
        simp at ht
    have hcompute : u < layers.length := by
      by_contra hge
      push_neg at hge
      rw [runTrace, List.getElem?_append,
        if_neg (by rw [List.length_map]; omega), List.length_map, List.getElem?_map] at hu
      cases hx : layers[u - layers.length]? with
      | none =>
        rw [hx] at hu
        simp at hu
      | some a =>
        rw [hx] at hu
        simp at hu
    omega
  · intro j
    rw [runTrace, List.getElem?_append, if_neg (by rw [List.length_map]; omega),
      List.length_map, Nat.add_sub_cancel_left, List.getElem?_map]

/-- C1 counterexample: with layers `["A", "B"]` the trace is
compute A, compute B, commit A, commit B: layer B's computation starts
while layer A's completed result is still uncommitted, so an
interruption there loses more than the in-flight layer. -/
theorem runTrace_counterexample : ¬ commitBeforeNextCompute ["A", "B"] := by
  intro h
  have h0 := h 0 (by decide)
  revert h0
  decide

/-! ## Commit write (source lines 188-190 and 232-234) -/

/-- Embedding of `open(params.fout, 'wb')`: opening in `wb` mode
truncates the file at the output path in place. -/
def openTruncate (_old : List Nat) : List Nat := []

/-- Embedding of `fout.write(xml_out)`: bytes reach the open file
sequentially. -/
def writeBytes (file : List Nat) (bytes : List Nat) : List Nat :=
  bytes.foldl (fun f b => f ++ [b]) file

/-- Durable contents of the output file when the process stops after `k`
bytes of one commit's write have reached the disk (`k` equal to the full
length is the uninterrupted case): the open already truncated the file,
so only the written prefix survives. -/
def commitInterrupted (old newBytes : List Nat) (k : Nat) : List Nat :=
  writeBytes (openTruncate old) (newBytes.take k)

lemma writeBytes_eq_append (file bytes : List Nat) :
    writeBytes file bytes = file ++ bytes := by
  induction bytes generalizing file with
  | nil => simp [writeBytes]
  | cons b rest ih =>
    show List.foldl (fun f c => f ++ [c]) (file ++ [b]) rest = file ++ b :: rest
    rw [show List.foldl (fun f c => f ++ [c]) (file ++ [b]) rest =
      writeBytes (file ++ [b]) rest from rfl, ih]
    simp

/-! ## Claim C2 -/

/-- C2 (amended): a commit rewrites the output file in place by
truncating it and writing the new serialization; the uninterrupted write
leaves exactly the new document, but an interruption after `k` bytes
leaves just a prefix of the new serialization on disk — the previous
durable revision is already destroyed by the truncating open, so the
write is not atomic with respect to interruption. -/
theorem commitInterrupted_spec (old newBytes : List Nat) (k : Nat) :
    commitInterrupted old newBytes newBytes.length = newBytes ∧
    (∃ rest, newBytes = commitInterrupted old newBytes k ++ rest) := by
  constructor
  · rw [commitInterrupted, openTruncate, writeBytes_eq_append, List.take_length,
      List.nil_append]
  · refine ⟨newBytes.drop k, ?_⟩
    rw [commitInterrupted, openTruncate, writeBytes_eq_append, List.nil_append,
      List.take_append_drop]

/-- C2 counterexample: committing new serialization `[2, 3]` over
previous durable contents `[1]`, interrupted after one byte, leaves `[2]`
on disk — neither the previous revision nor the full new one, i.e. a
half-written document. -/
theorem commitInterrupted_counterexample :
    commitInterrupted [1] [2, 3] 1 ≠ [2, 3] ∧ commitInterrupted [1] [2, 3] 1 ≠ [1] := by
  decide

/-! ## process_layer's effects (source lines 57-65) -/

/-- The boundary-source handle (`ParseTrakEM2`): the path it was built
from and the currently parsed tree (`process_layer` re-parses the source
file into `P.xml`, source line 60). `S` is the parsed representation,
opaque to the pipeline. -/
structure ParserState (S : Type) where
  trakem2 : String
  xml : Option S

/-- The run state a layer task can see: the shared parser object, the
in-memory output tree and the output file's durable bytes. -/
structure RunState (S : Type) where
  P : ParserState S
  outTree : List LayerEntry
  outFile : List Nat

/-- The external collaborators a layer task calls (spec section 6): the
source parser and the three per-layer operations, functions of the
parsed document and the parameters. `B` is the boundary-set type, `C`
the candidate-pair-set type. -/
structure Externals (S B C : Type) where
  parse : String → S
  get_boundaries_in_layer : S → String → Int → Rat → B
  get_overlapping_boundaries : B → C
  batch_compute_adjacency : C → Int → List AdjRecord

/-- The parameters the layer task reads (source lines 61-64). -/
structure Params where
  pixel_radius : Int
  area_thresh : Int
  scale_bounding_box : Rat

/-- Embedding of `process_layer` (source lines 57-65): re-parse the
source file into `P.xml`, then boundary source, overlap filter and
batched adjacency scorer; the layer result is returned, not stored. -/
def process_layer {S B C : Type} (ext : Externals S B C) (l : String)
    (st : RunState S) (params : Params) : RunState S × List AdjRecord :=
  let pxml := ext.parse st.P.trakem2
  let st1 : RunState S := { st with P := { st.P with xml := some pxml } }
  let bnd := ext.get_boundaries_in_layer pxml l params.area_thresh params.scale_bounding_box
  let overlap := ext.get_overlapping_boundaries bnd
  let adj := ext.batch_compute_adjacency overlap params.pixel_radius
  (st1, adj)

/-! ## Claim C8 -/

/-- C8: running one layer task leaves the result store untouched — both
the in-memory output tree and the output file's durable bytes are
unchanged for every layer, parameter choice and choice of external
collaborators (the only state it writes is the parser handle's re-parsed
`xml` field, which is not part of the result store). -/
theorem process_layer_frame {S B C : Type} (ext : Externals S B C) (l : String)
    (st : RunState S) (params : Params) :
    (process_layer ext l st params).1.outTree = st.outTree ∧
    (process_layer ext l st params).1.outFile = st.outFile := by
  exact ⟨rfl, rfl⟩

/-! ## Per-record serialization (source lines 210-221) -/

/-- The `area` element built for one adjacency record `(b1, b2, _adj)`:
`cell1` and `cell2` hold the two boundary names, `index1` and `index2`
their indices as text, `adjacency` the score as text. -/
def emitArea (r : AdjRecord) : AreaElem :=
  ⟨r.1.name, r.2.1.name, toString r.1.index, toString r.2.1.index, toString r.2.2⟩

/-- The inner write loop for one layer (source lines 210-221): one
`area` subelement is appended per record of `adj`, in order, to the
layer's element. -/
def writeLayerResult (entry : LayerEntry) (adj : List AdjRecord) : LayerEntry :=
  adj.foldl (fun e r => { e with areas := e.areas ++ [emitArea r] }) entry

lemma writeLayerResult_eq (entry : LayerEntry) (adj : List AdjRecord) :
    writeLayerResult entry adj = ⟨entry.name, entry.areas ++ adj.map emitArea⟩ := by
  induction adj generalizing entry with
  | nil => simp [writeLayerResult]
  | cons r rest ih =>
    show writeLayerResult ⟨entry.name, entry.areas ++ [emitArea r]⟩ rest = _
    rw [ih]
    simp

/-! ## Claim C7 -/

/-- C7: starting from a layer's empty placeholder, the committed layer
entry keeps its name and serializes each adjacency record, in the layer
result's order, as one `area` element holding exactly the fields `cell1`
(first boundary's name), `cell2` (second boundary's name), `index1` and
`index2` (the two indices as text) and `adjacency` (the numeric score as
text): the k-th area element comes from the k-th record. -/
theorem writeLayerResult_fields (nm : String) (adj : List AdjRecord) :
    (writeLayerResult ⟨nm, []⟩ adj).name = nm ∧
    (writeLayerResult ⟨nm, []⟩ adj).areas.length = adj.length ∧
    ∀ k : Nat, (writeLayerResult ⟨nm, []⟩ adj).areas[k]? =
      Option.map (fun r : AdjRecord =>
        (⟨r.1.name, r.2.1.name, toString r.1.index, toString r.2.1.index,
          toString r.2.2⟩ : AreaElem)) adj[k]? := by
  rw [writeLayerResult_eq]
  refine ⟨rfl, by simp, ?_⟩
  intro k
  rw [show (⟨nm, [] ++ adj.map emitArea⟩ : LayerEntry).areas = adj.map emitArea by simp,
    List.getElem?_map]
  cases adj[k]? with
  | none => rfl
  | some r => rfl

/-! ## Claim C10 -/

/-- C10: for every nonnegative integer number of seconds `s`,
`time_string s` is the string `"d:h:m:sec"` where `d`, `h`, `m`, `sec`
are the unique nonnegative integers with
`s = 86400*d + 3600*h + 60*m + sec`, `h < 24`, `m < 60`, `sec < 60`. -/
theorem time_string_spec (s : Nat) :
    ∃ d h m sec,
      time_string s = toString d ++ ":" ++ toString h ++ ":" ++ toString m ++ ":" ++ toString sec ∧
      s = 86400 * d + 3600 * h + 60 * m + sec ∧ h < 24 ∧ m < 60 ∧ sec < 60 ∧
      (∀ d' h' m' sec',
        s = 86400 * d' + 3600 * h' + 60 * m' + sec' → h' < 24 → m' < 60 → sec' < 60 →
        d' = d ∧ h' = h ∧ m' = m ∧ sec' = sec) := by
  refine ⟨s / 86400, s % 86400 / 3600, s % 86400 % 3600 / 60, s % 86400 % 3600 % 60,
    rfl, ?_, ?_, ?_, ?_, ?_⟩
  · omega
  · omega
  · omega
  · omega
  · intro d' h' m' sec' h1 h2 h3 h4
    omega

/-! ## Claim C9 -/

/-- C9: with no explicit layer list, the layers processed are exactly the
layer names known to the boundary source, in lexicographically sorted
order. -/
theorem selectLayers_default_sorted (known : List String) :
    (selectLayers none known).Perm known ∧ (selectLayers none known).Sorted (· ≤ ·) := by
  constructor
  · exact List.mergeSort_perm known _
  · have htrans : ∀ a b c : String,
        (decide (a ≤ b)) = true → (decide (b ≤ c)) = true → (decide (a ≤ c)) = true := by
      intro a b c hab hbc
      simp only [decide_eq_true_eq] at *
      exact le_trans hab hbc
    have htotal : ∀ a b : String, ((decide (a ≤ b)) || (decide (b ≤ a))) = true := by
      intro a b
      simp only [Bool.or_eq_true, decide_eq_true_eq]
      exact le_total a b
    have h := List.sorted_mergeSort htrans htotal known
    exact h.imp (fun hab => by simpa using hab)

end MeasureAdjacency
